import Mathlib

/-!
Verification of the `Oscillo` driver (`lase/drivers/oscillo.py`):
a calibration and acquisition controller for an FPGA oscilloscope /
waveform-generator pair.

Shallow embedding conventions used throughout this file:

* Real-valued samples are modelled as rationals.  A sample that may be
  non-finite (the float `nan` produced by a failed reception, or the
  `inf`/`nan` produced by a division by zero) is modelled as `Option ℚ`,
  with `none` standing for a non-finite value.  All lifted arithmetic
  propagates `none`, matching IEEE float propagation of `nan`.
* Complex values are modelled as pairs of rationals (`CQ`); possibly
  non-finite complex values as `Option CQ`.  Complex division by zero
  yields `none` (numpy emits `nan+nanj` there).
* The FFT/IFFT/IRFFT of numpy and the complex absolute value are not
  rational-valued functions, so the embedding is parametrised by a
  `NumModel`: an arbitrary family of transforms constrained only by the
  shape laws numpy guarantees (length preservation, the `irfft` output
  length convention, and that the absolute value of a real number is its
  rational absolute value).  Every theorem quantified over the model holds
  in particular for the true transforms; concrete instances (including an
  exact DFT on length-4 vectors, whose twiddle factors are Gaussian
  rationals) are used for counterexamples and witnesses.
-/

set_option autoImplicit false

namespace Oscillo

/-- A complex number with rational real and imaginary parts.  Used to model
the (finite) complex floats flowing through the spectrum computations. -/
structure CQ where
  re : ℚ
  im : ℚ
  deriving DecidableEq, Repr

namespace CQ

def ofRat (q : ℚ) : CQ := ⟨q, 0⟩

instance : Zero CQ := ⟨⟨0, 0⟩⟩
instance : One CQ := ⟨⟨1, 0⟩⟩

def add (z w : CQ) : CQ := ⟨z.re + w.re, z.im + w.im⟩
def mul (z w : CQ) : CQ := ⟨z.re * w.re - z.im * w.im, z.re * w.im + z.im * w.re⟩
def neg (z : CQ) : CQ := ⟨-z.re, -z.im⟩
def sub (z w : CQ) : CQ := ⟨z.re - w.re, z.im - w.im⟩

instance : Add CQ := ⟨add⟩
instance : Mul CQ := ⟨mul⟩
instance : Neg CQ := ⟨neg⟩
instance : Sub CQ := ⟨sub⟩

/-- Complex division, defined for a nonzero divisor; the caller guards the
zero case (mapping it to a non-finite value). -/
def div (z w : CQ) : CQ :=
  let d := w.re * w.re + w.im * w.im
  ⟨(z.re * w.re + z.im * w.im) / d, (z.im * w.re - z.re * w.im) / d⟩

@[simp] theorem add_def (z w : CQ) :
    z + w = ⟨z.re + w.re, z.im + w.im⟩ := rfl
@[simp] theorem sub_def (z w : CQ) :
    z - w = ⟨z.re - w.re, z.im - w.im⟩ := rfl
@[simp] theorem neg_def (z : CQ) : -z = ⟨-z.re, -z.im⟩ := rfl
@[simp] theorem mul_def (z w : CQ) :
    z * w = ⟨z.re * w.re - z.im * w.im, z.re * w.im + z.im * w.re⟩ := rfl

@[simp] theorem zero_def : (0 : CQ) = ⟨0, 0⟩ := rfl
@[simp] theorem one_def : (1 : CQ) = ⟨1, 0⟩ := rfl
@[simp] theorem zero_re : (0 : CQ).re = 0 := rfl
@[simp] theorem zero_im : (0 : CQ).im = 0 := rfl
@[simp] theorem one_re : (1 : CQ).re = 1 := rfl
@[simp] theorem one_im : (1 : CQ).im = 0 := rfl

end CQ

/-- A possibly non-finite real sample: `none` models IEEE `nan` (and the
non-finite results of division by zero). -/
abbrev RV : Type := Option ℚ

/-- A possibly non-finite complex value. -/
abbrev CV : Type := Option CQ

/-- Lifted addition on samples; any non-finite operand poisons the result. -/
def addRV (x y : RV) : RV :=
  match x, y with
  | some a, some b => some (a + b)
  | _, _ => none

/-- Lifted subtraction on samples. -/
def subRV (x y : RV) : RV :=
  match x, y with
  | some a, some b => some (a - b)
  | _, _ => none

/-- Lifted multiplication by a finite scalar. -/
def scaleRV (c : ℚ) (x : RV) : RV := x.map (fun a => c * a)

/-- Lifted division by a finite scalar; division by zero is non-finite
(numpy produces `inf` or `nan` there). -/
def divScalarRV (x : RV) (c : ℚ) : RV :=
  if c = 0 then none else x.map (fun a => a / c)

/-- Lifted complex addition. -/
def addCV (x y : CV) : CV :=
  match x, y with
  | some a, some b => some (a + b)
  | _, _ => none

/-- Lifted complex division; a zero (or non-finite) divisor is non-finite
(numpy produces `nan+nanj` when dividing by complex zero). -/
def divCV (x y : CV) : CV :=
  match x, y with
  | some a, some b => if b = 0 then none else some (a.div b)
  | _, _ => none

/-- Lifted multiplication of a complex value by a finite real scalar. -/
def scaleCV (c : ℚ) (x : CV) : CV := x.map (fun z => CQ.mul (CQ.ofRat c) z)

/-- numpy `mod` for a positive modulus: `fmod a m = a - m * ⌊a / m⌋`,
always in `[0, m)` for `m > 0`. -/
def fmod (a m : ℚ) : ℚ := a - m * ⌊a / m⌋

/-- The signed 32-bit wraparound correction applied to raw samples
(line `np.mod(self.adc-2**31,2**32)-2**31` of `get_adc`). -/
def unwrap (x : ℚ) : ℚ := fmod (x - 2 ^ 31) (2 ^ 32) - 2 ^ 31

/-- The map `unwrap` lifted to possibly non-finite samples. -/
def unwrapRV (x : RV) : RV := x.map unwrap

theorem fmod_eq_mul_fract (a : ℚ) {m : ℚ} (hm : m ≠ 0) :
    fmod a m = m * Int.fract (a / m) := by
  unfold fmod Int.fract
  rw [mul_sub, mul_div_cancel₀ _ hm]

theorem fmod_nonneg (a : ℚ) {m : ℚ} (hm : 0 < m) : 0 ≤ fmod a m := by
  have h := Int.fract_nonneg (a / m)
  rw [fmod_eq_mul_fract a (ne_of_gt hm)]
  positivity

theorem fmod_lt (a : ℚ) {m : ℚ} (hm : 0 < m) : fmod a m < m := by
  have h := Int.fract_lt_one (a / m)
  rw [fmod_eq_mul_fract a (ne_of_gt hm)]
  calc m * Int.fract (a / m) < m * 1 := by
        exact (mul_lt_mul_left hm).mpr h
    _ = m := mul_one m

/-- The wraparound correction always lands in the signed 32-bit range. -/
theorem unwrap_mem_range (x : ℚ) :
    -(2 ^ 31) ≤ unwrap x ∧ unwrap x < 2 ^ 31 := by
  unfold unwrap
  constructor
  · have := fmod_nonneg (x - 2 ^ 31) (m := 2 ^ 32) (by norm_num)
    linarith
  · have := fmod_lt (x - 2 ^ 31) (m := 2 ^ 32) (by norm_num)
    have h : (2 : ℚ) ^ 32 = 2 ^ 31 + 2 ^ 31 := by norm_num
    linarith

/-- Numeric model: the numpy transforms used by the driver, abstracted.
The exact float FFT is not rational-valued, so the embedding quantifies
over any family of transforms satisfying the shape laws numpy guarantees. -/
structure NumModel where
  fft : List CQ → List CQ
  ifft : List CQ → List CQ
  irfft : List CQ → List ℚ
  cabs : CQ → ℚ
  fft_length : ∀ l, (fft l).length = l.length
  ifft_length : ∀ l, (ifft l).length = l.length
  irfft_length : ∀ l, (irfft l).length = 2 * (l.length - 1)
  cabs_real : ∀ a : ℚ, cabs ⟨a, 0⟩ = |a|

/-- Embeds `np.fft.fft` applied to a real-valued buffer that may contain `nan`:
when any entry is non-finite every output bin is non-finite (each DFT bin
sums all inputs), otherwise it is the model transform of the values. -/
def fftRV (F : NumModel) (l : List RV) : List CV :=
  if l.all Option.isSome then
    (F.fft (l.map (fun x => CQ.ofRat (x.getD 0)))).map some
  else
    List.replicate l.length none

/-- Embeds `np.fft.ifft` on a possibly non-finite complex buffer. -/
def ifftCV (F : NumModel) (l : List CV) : List CV :=
  if l.all Option.isSome then
    (F.ifft (l.map (fun x => x.getD 0))).map some
  else
    List.replicate l.length none

/-- A two-channel family of values (channels 0 and 1). -/
structure Pair (α : Type) where
  c0 : α
  c1 : α
  deriving DecidableEq, Repr

namespace Pair

def get {α : Type} (p : Pair α) (c : Fin 2) : α :=
  if c = 0 then p.c0 else p.c1

def set {α : Type} (p : Pair α) (c : Fin 2) (v : α) : Pair α :=
  if c = 0 then { p with c0 := v } else { p with c1 := v }

def map {α β : Type} (f : α → β) (p : Pair α) : Pair β := ⟨f p.c0, f p.c1⟩

@[simp] theorem get_zero {α : Type} (p : Pair α) : p.get 0 = p.c0 := rfl
@[simp] theorem get_one {α : Type} (p : Pair α) : p.get 1 = p.c1 := rfl

end Pair

/-- What the device returns during one `get_adc` call: the two raw channel
buffers read from the ADC memory maps, and the value of the hardware
averaging-count register (`_n_avg1_off`). -/
structure DevRead where
  r0 : List RV
  r1 : List RV
  n_avg1 : ℚ
  deriving DecidableEq, Repr

/-- The controller state: the modelled fields of an `Oscillo` instance plus
the hardware register bits it toggles. -/
structure State where
  /-- `lase_base.n` = `lase_base.sampling.n`, the device sample depth. -/
  n : ℕ
  /-- The two captured channel buffers (`self.adc`). -/
  adc : Pair (List RV)
  /-- `self.spectrum` (rebound to the complex half-spectrum by `get_spectrum`). -/
  spectrum : Pair (List CV)
  /-- `self.avg_spectrum`. -/
  avg_spectrum : Pair (List RV)
  /-- `self.ideal_amplitude_waveform`. -/
  ideal_amplitude_waveform : List ℚ
  /-- `self.amplitude_transfer_function`. -/
  amplitude_transfer_function : List CV
  /-- `self.gaussian_filter`: a fixed real window; its values involve `exp`
  over the (unmodelled) sampling frequency grid, so they are carried
  opaquely. -/
  gaussian_filter : List ℚ
  /-- `self.adc_offset`. -/
  adc_offset : Pair ℚ
  /-- `self.optical_power`. -/
  optical_power : Pair ℚ
  /-- `self.power`. -/
  power : Pair ℚ
  /-- `self.avg_on`. -/
  avg_on : Bool
  /-- Hardware averaging-enable bit for channel 1 (inverted convention:
  cleared = averaging enabled). -/
  avg_bit1 : Bool
  /-- Hardware averaging-enable bit for channel 2. -/
  avg_bit2 : Bool
  /-- The address-strobe bit (`_addr_off`, bit 1) toggled by `get_adc`. -/
  strobe_bit : Bool
  /-- `self._is_failed`: never initialised by the constructor, so it is
  absent (`none`) until the first reception fault sets it. -/
  is_failed : Option Bool
  /-- `self.dac`: the two commanded output waveforms.  Modelled from the
  spec: the `dac` buffers live on the (missing) `Lase` base object; the
  spec gives them the device-native sample length. -/
  dac : Pair (List RV)
  /-- `self.amplitude_error`: absent until the first `optimize_amplitude`
  call assigns it; modelled as the empty buffer before that. -/
  amplitude_error : List RV
  deriving DecidableEq, Repr

/-- Method `set_averaging`: record the flag and drive the two hardware bits
(clearing both enables averaging, setting both disables it). -/
def set_averaging (avg_on : Bool) (s : State) : State :=
  let s := { s with avg_on := avg_on }
  if s.avg_on then
    { s with avg_bit1 := false, avg_bit2 := false }
  else
    { s with avg_bit1 := true, avg_bit2 := true }

/-- Method `reset`: `lase_base.reset()` touches only unmodelled hardware state
(Modelled from the spec: the `Lase` base class is not part of the sources);
then averaging is disabled. -/
def reset (s : State) : State :=
  set_averaging false { s with avg_on := false }

/-- Constructor `__init__`: allocate all arrays at device-native lengths and call
`reset`.  `strobe0` is the power-on value of the strobe bit, which the
constructor does not touch.  Note `_is_failed` is never initialised. -/
def init (n : ℕ) (gaussian_filter : List ℚ) (strobe0 : Bool) : State :=
  reset
    { n := n
      adc := ⟨List.replicate n (some 0), List.replicate n (some 0)⟩
      spectrum := ⟨List.replicate (n / 2) (some 0), List.replicate (n / 2) (some 0)⟩
      avg_spectrum := ⟨List.replicate (n / 2) (some 0), List.replicate (n / 2) (some 0)⟩
      ideal_amplitude_waveform := List.replicate n 0
      amplitude_transfer_function := List.replicate n (some 1)
      gaussian_filter := gaussian_filter
      adc_offset := ⟨0, 0⟩
      optical_power := ⟨1, 1⟩
      power := ⟨1, 1⟩
      avg_on := false
      avg_bit1 := true
      avg_bit2 := true
      strobe_bit := strobe0
      is_failed := none
      dac := ⟨List.replicate n (some 0), List.replicate n (some 0)⟩
      amplitude_error := [] }

/-- Embeds `np.isnan(l[0])` for a channel buffer (the buffers read from the device
are nonempty for the real device, whose depth is 8192). -/
def firstIsNaN (l : List RV) : Bool :=
  match l.head? with
  | some none => true
  | _ => false

/-- Offset/gain calibration of one channel buffer: subtract the offset,
then multiply by the `optical_power / power` ratio. -/
def calibrate (off gain : ℚ) (l : List RV) : List RV :=
  (l.map (fun x => subRV x (some off))).map (fun x => scaleRV gain x)

/-- Method `get_adc`: strobe, read both channel buffers, validate the first
samples, unwrap, optionally divide by the averaging count, clear the
strobe, calibrate.  On a reception fault the method returns early: the
flag is set, the buffers stay raw, and the strobe bit stays set. -/
def get_adc (d : DevRead) (s : State) : State :=
  let s1 := { s with strobe_bit := true, adc := ⟨d.r0, d.r1⟩ }
  if firstIsNaN s1.adc.c0 || firstIsNaN s1.adc.c1 then
    { s1 with is_failed := some true }
  else
    let a := s1.adc.map (fun l => l.map unwrapRV)
    let a :=
      if s1.avg_on then a.map (fun l => l.map (fun x => divScalarRV x d.n_avg1))
      else a
    let s2 := { s1 with strobe_bit := false }
    { s2 with
      adc := ⟨calibrate (s2.adc_offset.c0) (s2.optical_power.c0 / s2.power.c0) a.c0,
              calibrate (s2.adc_offset.c1) (s2.optical_power.c1 / s2.power.c1) a.c1⟩ }

/-- The largest absolute value in a real buffer (`np.max(np.abs(l))`;
the callers only apply it to nonempty buffers). -/
def maxAbs (l : List ℚ) : ℚ :=
  (l.map (fun x => |x|)).foldl max 0

/-- The first stages of `_white_noise`: band-limited flat spectrum with
random phases (`phases` carries the unit phase factors `exp(iθ)` of the
random draw), inverse real transform, re-transform to the full complex
spectrum, pin bin 0 to `0.01` and index `sampling.n / 2` to `1`.  `none`
models the `IndexError` raised when the pinned index `sampling.n / 2` is
outside the waveform. -/
def white_noise_adjusted (F : NumModel) (samp_n n_freqs : ℕ) (n_stop : Option ℕ)
    (phases : List CQ) : Option (List CQ) :=
  let n_stop := n_stop.getD n_freqs
  let amplitudes : List ℚ := (List.range n_freqs).map (fun i => if i < n_stop then 1 else 0)
  let spec := List.zipWith (fun a p => CQ.mul (CQ.ofRat a) p) amplitudes phases
  let wn1 := F.irfft spec
  let wn2 := F.fft (wn1.map CQ.ofRat)
  if samp_n / 2 < wn2.length then
    some ((wn2.set 0 ⟨1 / 100, 0⟩).set (samp_n / 2) 1)
  else none

/-- The pre-normalization waveform of `_white_noise`: the real part of the
inverse transform of the adjusted spectrum. -/
def white_noise_pre (F : NumModel) (samp_n n_freqs : ℕ) (n_stop : Option ℕ)
    (phases : List CQ) : Option (List ℚ) :=
  (white_noise_adjusted F samp_n n_freqs n_stop phases).map (fun wn3 =>
    (F.ifft wn3).map CQ.re)

/-- Method `_white_noise`: the pre-normalization waveform divided by `1.7` times
its peak absolute value. -/
def white_noise (F : NumModel) (samp_n n_freqs : ℕ) (n_stop : Option ℕ)
    (phases : List CQ) : Option (List RV) :=
  (white_noise_pre F samp_n n_freqs n_stop phases).map (fun wn4 =>
    let m := maxAbs wn4
    wn4.map (fun x => divScalarRV (some x) (17 / 10 * m)))

/-- One trial of the transfer-function estimation loop: generate a probe,
command it on the output channel (`set_dac` writes it to unmodelled
hardware), settle, acquire, and accumulate the bin-wise complex ratio
response/probe.  `none` propagates a probe-generation `IndexError`. -/
def tf_trial (F : NumModel) (channel_dac channel_adc : Fin 2) (t : List CQ × DevRead)
    (s : State) : Option State :=
  match white_noise F s.n (s.n / 2 + 1) none t.1 with
  | none => none
  | some wn =>
    let s := { s with dac := s.dac.set channel_dac wn }
    let s := get_adc t.2 s
    let ratio := List.zipWith divCV (fftRV F (s.adc.get channel_adc)) (fftRV F wn)
    some { s with
      amplitude_transfer_function :=
        List.zipWith addCV s.amplitude_transfer_function ratio }

/-- The estimation loop over the trial inputs. -/
def tf_loop (F : NumModel) (channel_dac channel_adc : Fin 2) :
    List (List CQ × DevRead) → State → Option State
  | [], s => some s
  | t :: ts, s => (tf_trial F channel_dac channel_adc t s).bind
      (tf_loop F channel_dac channel_adc ts)

/-- Method `get_amplitude_transfer_function`: zero the accumulator, run the
trials, divide by the trial count, force bin 0 to exactly 1, and zero the
commanded output waveform of the driven channel. -/
def get_amplitude_transfer_function (F : NumModel)
    (channel_dac channel_adc : Fin 2) (trials : List (List CQ × DevRead))
    (s : State) : Option State :=
  let s := { s with
    amplitude_transfer_function :=
      s.amplitude_transfer_function.map (fun z => scaleCV 0 z) }
  (tf_loop F channel_dac channel_adc trials s).map (fun s1 =>
    let tf := s1.amplitude_transfer_function.map
      (fun z => divCV z (some (CQ.ofRat (trials.length : ℚ))))
    let tf := tf.set 0 (some 1)
    { s1 with
      amplitude_transfer_function := tf
      dac := s1.dac.set channel_dac (List.replicate s1.n (some 0)) })

/-- Method `get_correction`: inverse filtering of the amplitude error by the
transfer function, DC bin zeroed, Gaussian smoothing, real part of the
inverse transform. -/
def get_correction (F : NumModel) (s : State) : List RV :=
  let tmp := List.zipWith divCV (fftRV F s.amplitude_error)
    s.amplitude_transfer_function
  let tmp := tmp.set 0 (some 0)
  let tmp := List.zipWith (fun g z => scaleCV g z) s.gaussian_filter tmp
  (ifftCV F tmp).map (Option.map CQ.re)

/-- Method `optimize_amplitude`: the amplitude error is computed from channel 0's
captured buffer (the channel argument only selects which commanded output
is updated), then `alpha` times the correction is subtracted from the
commanded output waveform of `channel`. -/
def optimize_amplitude (F : NumModel) (alpha : ℚ) (channel : Fin 2)
    (s : State) : State :=
  let m := divScalarRV (s.adc.c0.foldl addRV (some 0)) ((s.adc.c0.length : ℚ))
  let err := List.zipWith subRV (s.adc.c0.map (fun x => subRV x m))
    (s.ideal_amplitude_waveform.map some)
  let s := { s with amplitude_error := err }
  let corr := get_correction F s
  { s with
    dac := s.dac.set channel
      (List.zipWith subRV (s.dac.get channel) (corr.map (fun x => scaleRV alpha x))) }

/-- Method `get_spectrum`: FFT of the latest captured buffers, truncated to the
first `sampling.n / 2` bins. -/
def get_spectrum (F : NumModel) (s : State) : State :=
  { s with
    spectrum := ⟨(fftRV F s.adc.c0).take (s.n / 2),
                 (fftRV F s.adc.c1).take (s.n / 2)⟩ }

/-- One iteration of the `get_avg_spectrum` loop: a fresh acquisition, then
`|FFT(capture)|` of both channels added into the running half-spectrum sum. -/
def avg_spectrum_step (F : NumModel) (s : State) (d : DevRead) : State :=
  let s := get_adc d s
  let m0 := (fftRV F s.adc.c0).map (Option.map F.cabs)
  let m1 := (fftRV F s.adc.c1).map (Option.map F.cabs)
  { s with
    avg_spectrum := ⟨List.zipWith addRV s.avg_spectrum.c0 (m0.take (s.n / 2)),
                     List.zipWith addRV s.avg_spectrum.c1 (m1.take (s.n / 2))⟩ }

/-- Method `get_avg_spectrum`: `n_avg` fresh acquisitions (`ds` carries the device
data of each), summing `|FFT(capture)|` over the half-spectrum, divided by
`n_avg` at the end. -/
def get_avg_spectrum (F : NumModel) (ds : List DevRead) (s : State) : State :=
  let s := { s with
    avg_spectrum := ⟨List.replicate (s.n / 2) (some 0),
                     List.replicate (s.n / 2) (some 0)⟩ }
  let s := ds.foldl (avg_spectrum_step F) s
  { s with
    avg_spectrum := ⟨s.avg_spectrum.c0.map (fun x => divScalarRV x ((ds.length : ℚ))),
                     s.avg_spectrum.c1.map (fun x => divScalarRV x ((ds.length : ℚ)))⟩ }

/-- Method `set_amplitude_transfer_function`: overwrite the transfer function with
an externally supplied array. -/
def set_amplitude_transfer_function (tf : List CV) (s : State) : State :=
  { s with amplitude_transfer_function := tf }

/-- One public operation of the controller, with the device data it
consumes. -/
inductive Op where
  | opReset : Op
  | opSetAveraging : Bool → Op
  | opGetAdc : DevRead → Op
  | opEstimateTF : Fin 2 → Fin 2 → List (List CQ × DevRead) → Op
  | opOptimizeAmplitude : ℚ → Fin 2 → Op
  | opGetSpectrum : Op
  | opGetAvgSpectrum : List DevRead → Op
  | opSetTF : List CV → Op
  deriving DecidableEq

/-- The state transition of one operation.  A probe-generation
`IndexError` inside the estimation loop aborts the method; it is
unreachable for the device's even sample depth and is modelled as leaving
the state unchanged. -/
def step (F : NumModel) : Op → State → State
  | .opReset, s => reset s
  | .opSetAveraging b, s => set_averaging b s
  | .opGetAdc d, s => get_adc d s
  | .opEstimateTF cd ca ts, s => (get_amplitude_transfer_function F cd ca ts s).getD s
  | .opOptimizeAmplitude a c, s => optimize_amplitude F a c s
  | .opGetSpectrum, s => get_spectrum F s
  | .opGetAvgSpectrum ds, s => get_avg_spectrum F ds s
  | .opSetTF tf, s => set_amplitude_transfer_function tf s

/-- Well-formedness of the device data an operation consumes, relative to
the current state: estimation trials draw `n/2 + 1` random phases and read
full-length buffers (as the real device does), and an externally supplied
transfer function has the allocated length. -/
def wfOp (op : Op) (s : State) : Bool :=
  match op with
  | .opEstimateTF _ _ ts =>
      decide (Even s.n) && decide (0 < s.n) &&
        ts.all (fun t => t.1.length == s.n / 2 + 1 &&
          t.2.r0.length == s.n && t.2.r1.length == s.n)
  | .opSetTF tf => tf.length == s.n
  | _ => true

/-- A trivial numeric model: identity transforms.  Used to instantiate
theorems whose content does not depend on the transform values. -/
def trivialModel : NumModel where
  fft := fun l => l
  ifft := fun l => l
  irfft := fun l => List.replicate (2 * (l.length - 1)) 0
  cabs := fun z => if z.im = 0 then |z.re| else 0
  fft_length := fun _ => rfl
  ifft_length := fun _ => rfl
  irfft_length := fun l => by simp
  cabs_real := fun a => by simp

/-- The exact discrete Fourier transform on length-4 vectors: the fourth
roots of unity are Gaussian rationals, so `X k = ∑ t, x t · (-i) ^ (k·t)`
is exactly representable.  Vectors of other lengths are passed through. -/
def dft4 (l : List CQ) : List CQ :=
  if l.length = 4 then
    let x := fun i => (l.get? i).getD 0
    [x 0 + x 1 + x 2 + x 3,
     x 0 + CQ.mul ⟨0, -1⟩ (x 1) - x 2 + CQ.mul ⟨0, 1⟩ (x 3),
     x 0 - x 1 + x 2 - x 3,
     x 0 + CQ.mul ⟨0, 1⟩ (x 1) - x 2 + CQ.mul ⟨0, -1⟩ (x 3)]
  else l

/-- A numeric model whose forward transform is the exact DFT on length-4
vectors (the length used by the concrete counterexamples). -/
def dftModel : NumModel where
  fft := dft4
  ifft := fun l => l
  irfft := fun l => List.replicate (2 * (l.length - 1)) 0
  cabs := fun z => if z.im = 0 then |z.re| else 0
  fft_length := fun l => by
    unfold dft4
    split
    · simp_all
    · rfl
  ifft_length := fun _ => rfl
  irfft_length := fun l => by simp
  cabs_real := fun a => by simp

/-! ### Concrete inputs used by witnesses and counterexamples -/

/-- A small controller instance (depth 4, unit calibration). -/
def sampleState : State := init 4 [1, 1, 1, 1] false

/-- A capture whose first channel-0 sample reads as `nan`. -/
def dNaN : DevRead := ⟨none :: [some 0, some 0, some 0], List.replicate 4 (some 0), 1⟩

/-- A valid capture. -/
def dGood : DevRead := ⟨[some 5, some 0, some 0, some 0], List.replicate 4 (some 0), 1⟩

/-- A valid capture reading the unsigned word `2^32 - 1` (signed `-1`)
everywhere. -/
def dNeg : DevRead :=
  ⟨List.replicate 4 (some (2 ^ 32 - 1)), List.replicate 4 (some (2 ^ 32 - 1)), 1⟩

/-- A valid capture with all samples `8` and an averaging-count register
reading zero. -/
def dEight : DevRead := ⟨List.replicate 4 (some 8), List.replicate 4 (some 8), 0⟩

/-- A valid capture reading the unsigned word `2^31` (signed `-2^31`)
everywhere. -/
def dHalfScale : DevRead :=
  ⟨List.replicate 4 (some (2 ^ 31)), List.replicate 4 (some (2 ^ 31)), 1⟩

/-! ### C1: valid, averaging-off captures -/

/-- C1: for every capture that does not take the not-a-number fault path
and with averaging disabled, each output sample of channel `c` equals
`(unwrap x - offset_c) * (optical_power_c / power_c)`, and `unwrap` maps
every real input into `[-2^31, 2^31)`. -/
theorem get_adc_valid_capture (s : State) (d : DevRead) (c : Fin 2) (i : ℕ) (x : ℚ)
    (h0 : firstIsNaN d.r0 = false) (h1 : firstIsNaN d.r1 = false)
    (havg : s.avg_on = false)
    (hx : ((Pair.mk d.r0 d.r1).get c)[i]? = some (some x)) :
    ((get_adc d s).adc.get c)[i]? =
      some (some ((unwrap x - s.adc_offset.get c) *
        (s.optical_power.get c / s.power.get c))) ∧
    ∀ y : ℚ, -(2 ^ 31) ≤ unwrap y ∧ unwrap y < 2 ^ 31 := by
  refine ⟨?_, unwrap_mem_range⟩
  fin_cases c <;>
    simp_all [get_adc, h0, h1, havg, Pair.get, Pair.map, calibrate,
      List.getElem?_map, unwrapRV, subRV, scaleRV, mul_comm]

/-- C1 witness. -/
theorem get_adc_valid_capture_witness :
    (firstIsNaN dGood.r0 = false ∧ firstIsNaN dGood.r1 = false ∧
      sampleState.avg_on = false ∧
      ((Pair.mk dGood.r0 dGood.r1).get 0)[0]? = some (some 5)) ∧
    (((get_adc dGood sampleState).adc.get 0)[0]? =
      some (some ((unwrap 5 - sampleState.adc_offset.get 0) *
        (sampleState.optical_power.get 0 / sampleState.power.get 0))) ∧
     ∀ y : ℚ, -(2 ^ 31) ≤ unwrap y ∧ unwrap y < 2 ^ 31) :=
  ⟨⟨by decide, by decide, by decide, by decide⟩,
   get_adc_valid_capture sampleState dGood 0 0 5 (by decide) (by decide)
     (by decide) (by decide)⟩

/-! ### C2: the reception-fault path -/

/-- C2: when the first sample of either channel buffer reads as
not-a-number, `get_adc` sets the failure flag to `true` and returns with
both channel buffers in their raw, as-read state (no wraparound remap,
no averaging division, no calibration). -/
theorem get_adc_reception_fault (s : State) (d : DevRead)
    (h : firstIsNaN d.r0 = true ∨ firstIsNaN d.r1 = true) :
    (get_adc d s).is_failed = some true ∧
    (get_adc d s).adc = ⟨d.r0, d.r1⟩ := by
  rcases h with h | h <;> simp [get_adc, h]

/-- C2 witness. -/
theorem get_adc_reception_fault_witness :
    (firstIsNaN dNaN.r0 = true ∨ firstIsNaN dNaN.r1 = true) ∧
    ((get_adc dNaN sampleState).is_failed = some true ∧
     (get_adc dNaN sampleState).adc = ⟨dNaN.r0, dNaN.r1⟩) :=
  ⟨Or.inl (by decide),
   get_adc_reception_fault sampleState dNaN (Or.inl (by decide))⟩

/-! ### C3: the strobe bit on the fault path (corrected) -/

/-- C3 counterexample: on a capture that aborts at validation, the
address-strobe bit set at the start of the call is NOT cleared: starting
from a state with the bit clear, the call returns with it set. -/
theorem strobe_not_cleared_on_fault :
    sampleState.strobe_bit = false ∧
    (get_adc dNaN sampleState).strobe_bit = true := by
  constructor <;> decide

/-- C3 amended: the strobe bit is cleared before return on every capture
that passes validation; on the reception-fault path the early return skips
the clear. -/
theorem strobe_cleared_on_valid_capture (s : State) (d : DevRead)
    (h0 : firstIsNaN d.r0 = false) (h1 : firstIsNaN d.r1 = false) :
    (get_adc d s).strobe_bit = false := by
  simp [get_adc, h0, h1]

/-- C3 witness (for the amended theorem). -/
theorem strobe_cleared_on_valid_capture_witness :
    (firstIsNaN dGood.r0 = false ∧ firstIsNaN dGood.r1 = false) ∧
    (get_adc dGood sampleState).strobe_bit = false :=
  ⟨⟨by decide, by decide⟩,
   strobe_cleared_on_valid_capture sampleState dGood (by decide) (by decide)⟩

/-! ### C4: zero averaging count (code bug) -/

/-- C4: with averaging enabled and the averaging-count register reading
zero, `get_adc` divides both channel buffers by zero — every output sample
becomes non-finite — and no fault distinct from the reception fault (nor
any fault at all) is surfaced: the failure flag is untouched. -/
theorem avg_zero_divides_to_nonfinite :
    (get_adc dEight (set_averaging true sampleState)).adc.c0 =
      List.replicate 4 none ∧
    (get_adc dEight (set_averaging true sampleState)).adc.c1 =
      List.replicate 4 none ∧
    (get_adc dEight (set_averaging true sampleState)).is_failed =
      (set_averaging true sampleState).is_failed := by
  refine ⟨by decide, by decide, by decide⟩

/-! ### Shape lemmas -/

theorem fftRV_length (F : NumModel) (l : List RV) :
    (fftRV F l).length = l.length := by
  unfold fftRV
  split <;> simp [F.fft_length]

theorem ifftCV_length (F : NumModel) (l : List CV) :
    (ifftCV F l).length = l.length := by
  unfold ifftCV
  split <;> simp [F.ifft_length]

theorem white_noise_adjusted_some (F : NumModel) {n : ℕ} (hn : Even n)
    (h0 : 0 < n) (ph : List CQ) (hph : ph.length = n / 2 + 1) :
    ∃ wn3, white_noise_adjusted F n (n / 2 + 1) none ph = some wn3 ∧
      wn3.length = n ∧
      (0 < n / 2 → wn3[0]? = some ⟨1 / 100, 0⟩) ∧
      wn3[n / 2]? = some 1 := by
  have h2 : 2 * (n / 2) = n := by
    rw [mul_comm]; exact Nat.div_two_mul_two_of_even hn
  simp only [white_noise_adjusted, Option.getD_none]
  split
  · rename_i hc
    refine ⟨_, rfl, ?_, ?_, ?_⟩
    · simp [F.fft_length, F.irfft_length, hph, h2]
    · intro hhalf
      rw [List.getElem?_set_ne (Nat.ne_of_gt hhalf)]
      exact List.getElem?_set_eq_of_lt _ (lt_of_le_of_lt (Nat.zero_le _) hc)
    · exact List.getElem?_set_eq_of_lt _ (by simpa using hc)
  · rename_i h
    exfalso
    apply h
    have hL : (F.fft ((F.irfft (List.zipWith (fun a p => CQ.mul (CQ.ofRat a) p)
        ((List.range (n / 2 + 1)).map (fun i => if i < n / 2 + 1 then (1 : ℚ) else 0))
        ph)).map CQ.ofRat)).length = n := by
      simp [F.fft_length, F.irfft_length, hph, h2]
    rw [hL]
    exact Nat.div_lt_self h0 one_lt_two

theorem white_noise_pre_some (F : NumModel) {n : ℕ} (hn : Even n)
    (h0 : 0 < n) (ph : List CQ) (hph : ph.length = n / 2 + 1) :
    ∃ wn4, white_noise_pre F n (n / 2 + 1) none ph = some wn4 ∧
      wn4.length = n := by
  obtain ⟨wn3, hw, hlen, _, _⟩ := white_noise_adjusted_some F hn h0 ph hph
  exact ⟨_, by rw [white_noise_pre, hw]; rfl, by simp [F.ifft_length, hlen]⟩

theorem white_noise_some (F : NumModel) {n : ℕ} (hn : Even n)
    (h0 : 0 < n) (ph : List CQ) (hph : ph.length = n / 2 + 1) :
    ∃ wn, white_noise F n (n / 2 + 1) none ph = some wn ∧
      wn.length = n := by
  obtain ⟨wn4, hw, hlen⟩ := white_noise_pre_some F hn h0 ph hph
  exact ⟨_, by rw [white_noise, hw]; rfl, by simpa using hlen⟩

/-- Fields of the state that `get_adc` never writes. -/
theorem get_adc_fields (d : DevRead) (s : State) :
    (get_adc d s).n = s.n ∧
    (get_adc d s).avg_on = s.avg_on ∧
    (get_adc d s).adc_offset = s.adc_offset ∧
    (get_adc d s).optical_power = s.optical_power ∧
    (get_adc d s).power = s.power ∧
    (get_adc d s).amplitude_transfer_function = s.amplitude_transfer_function ∧
    (get_adc d s).gaussian_filter = s.gaussian_filter ∧
    (get_adc d s).ideal_amplitude_waveform = s.ideal_amplitude_waveform ∧
    (get_adc d s).avg_spectrum = s.avg_spectrum ∧
    (get_adc d s).dac = s.dac ∧
    (get_adc d s).amplitude_error = s.amplitude_error := by
  simp only [get_adc]
  split <;> simp

/-- The captured buffers keep the length the device handed over, on both
the fault and the normal path. -/
theorem get_adc_adc_length (d : DevRead) (s : State) :
    (get_adc d s).adc.c0.length = d.r0.length ∧
    (get_adc d s).adc.c1.length = d.r1.length := by
  simp only [get_adc]
  split
  · exact ⟨rfl, rfl⟩
  · constructor <;> (simp only [calibrate, Pair.map]; split <;> simp)

/-- Acquisition `get_adc` either leaves the failure flag alone or sets it to `true`. -/
theorem get_adc_flag (d : DevRead) (s : State) :
    (get_adc d s).is_failed = s.is_failed ∨
    (get_adc d s).is_failed = some true := by
  simp only [get_adc]
  split
  · exact Or.inr rfl
  · exact Or.inl rfl

theorem tf_trial_spec (F : NumModel) (cd ca : Fin 2)
    (t : List CQ × DevRead) (s : State)
    (hn : Even s.n) (h0 : 0 < s.n)
    (hph : t.1.length = s.n / 2 + 1)
    (hr0 : t.2.r0.length = s.n) (hr1 : t.2.r1.length = s.n)
    (htf : s.amplitude_transfer_function.length = s.n) :
    ∃ s', tf_trial F cd ca t s = some s' ∧ s'.n = s.n ∧
      s'.amplitude_transfer_function.length = s.n ∧
      (s'.is_failed = s.is_failed ∨ s'.is_failed = some true) := by
  obtain ⟨wn, hw, hwl⟩ := white_noise_some F hn h0 t.1 hph
  unfold tf_trial
  rw [hw]
  set s1 : State := { s with dac := s.dac.set cd wn } with hs1
  have hn1 : (get_adc t.2 s1).n = s.n := (get_adc_fields t.2 s1).1
  have htf1 : (get_adc t.2 s1).amplitude_transfer_function =
      s.amplitude_transfer_function := (get_adc_fields t.2 s1).2.2.2.2.2.1
  have hadc := get_adc_adc_length t.2 s1
  refine ⟨_, rfl, hn1, ?_, ?_⟩
  · have hca : ((get_adc t.2 s1).adc.get ca).length = s.n := by
      fin_cases ca
      · simpa [Pair.get, hr0] using hadc.1
      · simpa [Pair.get, hr1] using hadc.2
    simp [htf1, htf, fftRV_length, hca, hwl]
  · exact get_adc_flag t.2 s1

theorem tf_loop_spec (F : NumModel) (cd ca : Fin 2) :
    ∀ (ts : List (List CQ × DevRead)) (s : State),
    Even s.n → 0 < s.n →
    (∀ t ∈ ts, t.1.length = s.n / 2 + 1 ∧
      t.2.r0.length = s.n ∧ t.2.r1.length = s.n) →
    s.amplitude_transfer_function.length = s.n →
    ∃ s', tf_loop F cd ca ts s = some s' ∧ s'.n = s.n ∧
      s'.amplitude_transfer_function.length = s.n ∧
      (s'.is_failed = s.is_failed ∨ s'.is_failed = some true)
  | [], s, _, _, _, htf => ⟨s, rfl, rfl, htf, Or.inl rfl⟩
  | t :: ts, s, hn, h0, hwf, htf => by
    obtain ⟨hph, hr0, hr1⟩ := hwf t (List.mem_cons_self t ts)
    obtain ⟨s1, ht, hn1, htf1, hflag1⟩ :=
      tf_trial_spec F cd ca t s hn h0 hph hr0 hr1 htf
    obtain ⟨s2, hl, hn2, htf2, hflag2⟩ :=
      tf_loop_spec F cd ca ts s1 (hn1 ▸ hn) (hn1 ▸ h0)
        (fun t' ht' => hn1 ▸ hwf t' (List.mem_cons_of_mem t ht'))
        (hn1 ▸ htf1)
    refine ⟨s2, ?_, by rw [hn2, hn1], by rw [htf2, hn1], ?_⟩
    · simp [tf_loop, ht, hl]
    · rcases hflag2 with h | h
      · rw [h]; exact hflag1
      · exact Or.inr h

theorem Pair.get_set {α : Type} (p : Pair α) (c : Fin 2) (v : α) :
    (p.set c v).get c = v := by
  unfold Pair.set Pair.get
  split <;> simp_all

theorem getElem?_set_zero {α : Type} (l : List α) (v : α) (h : 0 < l.length) :
    (l.set 0 v)[0]? = some v := by
  cases l with
  | nil => simp at h
  | cons a t => simp

/-! ### C5: the transfer-function estimator -/

/-- C5: for every nonempty trial list, `get_amplitude_transfer_function`
completes, bin 0 of the transfer function equals exactly 1 (assigned after
the pointwise division of the accumulator by the trial count), and the
commanded output waveform of the driven channel is all zeros. -/
theorem estimate_tf_bin0_one_and_dac_zeroed (F : NumModel)
    (cd ca : Fin 2) (ts : List (List CQ × DevRead)) (s : State)
    (hn : Even s.n) (h0 : 0 < s.n) (_hne : ts ≠ [])
    (hwf : ∀ t ∈ ts, t.1.length = s.n / 2 + 1 ∧
      t.2.r0.length = s.n ∧ t.2.r1.length = s.n)
    (htf : s.amplitude_transfer_function.length = s.n) :
    ∃ s', get_amplitude_transfer_function F cd ca ts s = some s' ∧
      s'.amplitude_transfer_function[0]? = some (some 1) ∧
      s'.dac.get cd = List.replicate s.n (some 0) := by
  obtain ⟨s1, hl, hn1, htf1, _⟩ :=
    tf_loop_spec F cd ca ts
      { s with amplitude_transfer_function :=
          s.amplitude_transfer_function.map (fun z => scaleCV 0 z) }
      hn h0 hwf (by simpa using htf)
  have hn1' : s1.n = s.n := hn1
  have htf1' : s1.amplitude_transfer_function.length = s.n := htf1
  refine ⟨{ s1 with
      amplitude_transfer_function :=
        ((s1.amplitude_transfer_function.map
          (fun z => divCV z (some (CQ.ofRat (ts.length : ℚ))))).set 0 (some 1))
      dac := s1.dac.set cd (List.replicate s1.n (some 0)) }, ?_, ?_, ?_⟩
  · simp only [get_amplitude_transfer_function]
    rw [hl]
    rfl
  · exact getElem?_set_zero _ _ (by simp [htf1', h0])
  · show (s1.dac.set cd (List.replicate s1.n (some 0))).get cd = _
    rw [Pair.get_set, hn1']

/-- C5 witness. -/
theorem estimate_tf_bin0_one_and_dac_zeroed_witness :
    (Even sampleState.n ∧ 0 < sampleState.n ∧
      ([([⟨1, 0⟩, ⟨1, 0⟩, ⟨1, 0⟩], dGood)] :
        List (List CQ × DevRead)) ≠ [] ∧
      sampleState.amplitude_transfer_function.length = sampleState.n) ∧
    ∃ s', get_amplitude_transfer_function trivialModel 0 0
        [([⟨1, 0⟩, ⟨1, 0⟩, ⟨1, 0⟩], dGood)] sampleState = some s' ∧
      s'.amplitude_transfer_function[0]? = some (some 1) ∧
      s'.dac.get 0 = List.replicate sampleState.n (some 0) :=
  ⟨⟨by decide, by decide, by decide, by decide⟩,
   estimate_tf_bin0_one_and_dac_zeroed trivialModel 0 0 _ sampleState
     (by decide) (by decide) (by decide) (by decide) (by decide)⟩

/-! ### C6: the probe generator (corrected) -/

theorem foldl_max_init_le (l : List ℚ) (a : ℚ) : a ≤ l.foldl max a := by
  induction l generalizing a with
  | nil => exact le_refl a
  | cons b t ih => exact le_trans (le_max_left a b) (ih (max a b))

theorem le_foldl_max (l : List ℚ) (a x : ℚ) (hx : x ∈ l) : x ≤ l.foldl max a := by
  induction l generalizing a with
  | nil => simp at hx
  | cons b t ih =>
    rcases List.mem_cons.mp hx with h | h
    · subst h
      exact le_trans (le_max_right a x) (foldl_max_init_le t (max a x))
    · exact ih (max a b) h

theorem maxAbs_nonneg (l : List ℚ) : 0 ≤ maxAbs l :=
  foldl_max_init_le (l.map (fun x => |x|)) 0

theorem abs_le_maxAbs (l : List ℚ) (x : ℚ) (hx : x ∈ l) : |x| ≤ maxAbs l :=
  le_foldl_max _ 0 _ (List.mem_map_of_mem (fun x => |x|) hx)

/-- C6 counterexample: with the device depth 8192, the probe generator for
`n_freqs = 2` raises an `IndexError` (the pinned index `8192 / 2 = 4096`
is outside the length-2 waveform) instead of returning a probe. -/
theorem white_noise_raises_for_small_n_freqs :
    white_noise trivialModel 8192 2 none [⟨1, 0⟩, ⟨1, 0⟩] = none := by decide

/-- C6 amended: for `n_freqs = N/2 + 1` (the value the estimator uses, `N`
the even positive device depth) the probe generator succeeds: the adjusted
spectrum has bin 0 pinned to `0.01` and its Nyquist bin `N/2` pinned to
`1`, the returned waveform has length `2 * (n_freqs - 1)`, and — provided
the pre-normalization waveform is not identically zero — every sample is
finite with absolute value at most `1/1.7`. -/
theorem white_noise_properties (F : NumModel) {n : ℕ} (hn : Even n)
    (h0 : 0 < n) (ph : List CQ) (hph : ph.length = n / 2 + 1)
    (wn4 : List ℚ)
    (hpre : white_noise_pre F n (n / 2 + 1) none ph = some wn4)
    (hm : maxAbs wn4 ≠ 0) :
    ∃ wn3 wn,
      white_noise_adjusted F n (n / 2 + 1) none ph = some wn3 ∧
      wn3[0]? = some ⟨1 / 100, 0⟩ ∧
      wn3[n / 2]? = some 1 ∧
      white_noise F n (n / 2 + 1) none ph = some wn ∧
      wn.length = 2 * ((n / 2 + 1) - 1) ∧
      ∀ x ∈ wn, ∃ v : ℚ, x = some v ∧ |v| ≤ 10 / 17 := by
  obtain ⟨wn3, hw3, hl3, hbin0, hnyq⟩ := white_noise_adjusted_some F hn h0 ph hph
  have hhalf : 0 < n / 2 := by
    obtain ⟨k, hk⟩ := hn
    omega
  have hwn4 : wn4 = (F.ifft wn3).map CQ.re := by
    rw [white_noise_pre, hw3] at hpre
    exact (Option.some_inj.mp hpre).symm
  have hl4 : wn4.length = n := by
    simp [hwn4, F.ifft_length, hl3]
  have hmpos : 0 < maxAbs wn4 := lt_of_le_of_ne (maxAbs_nonneg wn4) (Ne.symm hm)
  have hdenom : (0 : ℚ) < 17 / 10 * maxAbs wn4 := by positivity
  have h2 : 2 * (n / 2) = n := by
    rw [mul_comm]; exact Nat.div_two_mul_two_of_even hn
  refine ⟨wn3, wn4.map (fun x => divScalarRV (some x) (17 / 10 * maxAbs wn4)),
    hw3, hbin0 hhalf, hnyq, ?_, ?_, ?_⟩
  · rw [white_noise, hpre]
    rfl
  · simp only [List.length_map, hl4, Nat.add_sub_cancel]
    exact h2.symm
  · intro x hx
    obtain ⟨y, hy, hxy⟩ := List.mem_map.mp hx
    refine ⟨y / (17 / 10 * maxAbs wn4), ?_, ?_⟩
    · rw [← hxy]
      simp [divScalarRV, ne_of_gt hdenom]
    · rw [abs_div, abs_of_pos hdenom, div_le_iff₀ hdenom]
      calc |y| ≤ maxAbs wn4 := abs_le_maxAbs wn4 y hy
        _ = 10 / 17 * (17 / 10 * maxAbs wn4) := by ring

/-- C6 witness (for the amended theorem). -/
theorem white_noise_properties_witness :
    (Even 4 ∧ 0 < 4 ∧
      (List.replicate 3 (⟨1, 0⟩ : CQ)).length = 4 / 2 + 1 ∧
      white_noise_pre trivialModel 4 (4 / 2 + 1) none
        (List.replicate 3 (⟨1, 0⟩ : CQ)) = some [1 / 100, 0, 1, 0] ∧
      maxAbs [1 / 100, 0, 1, 0] ≠ 0) ∧
    ∃ wn3 wn,
      white_noise_adjusted trivialModel 4 (4 / 2 + 1) none
        (List.replicate 3 (⟨1, 0⟩ : CQ)) = some wn3 ∧
      wn3[0]? = some ⟨1 / 100, 0⟩ ∧
      wn3[4 / 2]? = some 1 ∧
      white_noise trivialModel 4 (4 / 2 + 1) none
        (List.replicate 3 (⟨1, 0⟩ : CQ)) = some wn ∧
      wn.length = 2 * ((4 / 2 + 1) - 1) ∧
      ∀ x ∈ wn, ∃ v : ℚ, x = some v ∧ |v| ≤ 10 / 17 := by
  have hpre : white_noise_pre trivialModel 4 (4 / 2 + 1) none
      (List.replicate 3 (⟨1, 0⟩ : CQ)) = some [1 / 100, 0, 1, 0] := by
    simp only [white_noise_pre, white_noise_adjusted, trivialModel,
      Option.getD_none, List.replicate, List.range_succ, List.range_zero]
    norm_num [CQ.ofRat, CQ.mul, List.set]
  have hmax : maxAbs [1 / 100, 0, 1, 0] ≠ 0 := by
    have h1 : (1 : ℚ) ≤ maxAbs [1 / 100, 0, 1, 0] := by
      have h := abs_le_maxAbs [1 / 100, 0, 1, 0] 1 (by simp)
      simpa using h
    exact fun h => by rw [h] at h1; norm_num at h1
  exact ⟨⟨by decide, by decide, by decide, hpre, hmax⟩,
    white_noise_properties trivialModel (by decide) (by decide)
      (List.replicate 3 (⟨1, 0⟩ : CQ)) (by decide) [1 / 100, 0, 1, 0]
      hpre hmax⟩

/-! ### C7: averaged vs one-shot spectrum (corrected) -/

theorem zipWith_addRV_replicate_zero (l : List RV) (k : ℕ) :
    List.zipWith addRV (List.replicate k (some 0)) l = l.take k := by
  induction l generalizing k with
  | nil => simp
  | cons x t ih =>
    cases k with
    | zero => simp
    | succ k =>
      simp only [List.replicate, List.zipWith, List.take]
      refine congrArg₂ _ ?_ (ih k)
      cases x <;> simp [addRV]

theorem map_divScalarRV_one (l : List RV) :
    l.map (fun x => divScalarRV x 1) = l := by
  have h : ∀ x : RV, divScalarRV x 1 = x := by
    intro x
    cases x <;> simp [divScalarRV]
  simp [h]

/-- The corrected channel buffers produced by `get_adc` depend only on the
device data, the averaging flag and the calibration vectors. -/
theorem get_adc_adc_congr (d : DevRead) (s s' : State)
    (h1 : s.avg_on = s'.avg_on) (h2 : s.adc_offset = s'.adc_offset)
    (h3 : s.optical_power = s'.optical_power) (h4 : s.power = s'.power) :
    (get_adc d s).adc = (get_adc d s').adc := by
  simp only [get_adc, h1, h2, h3, h4]
  split <;> rfl

/-- Fields of the state that one averaging iteration never writes. -/
theorem avg_spectrum_step_fields (F : NumModel) (s : State) (d : DevRead) :
    (avg_spectrum_step F s d).n = s.n ∧
    (avg_spectrum_step F s d).avg_on = s.avg_on ∧
    (avg_spectrum_step F s d).adc_offset = s.adc_offset ∧
    (avg_spectrum_step F s d).optical_power = s.optical_power ∧
    (avg_spectrum_step F s d).power = s.power ∧
    (avg_spectrum_step F s d).amplitude_transfer_function =
      s.amplitude_transfer_function := by
  have h := get_adc_fields d s
  simp only [avg_spectrum_step]
  exact ⟨h.1, h.2.1, h.2.2.1, h.2.2.2.1, h.2.2.2.2.1, h.2.2.2.2.2.1⟩

theorem foldl_avg_spectrum_step_fields (F : NumModel) :
    ∀ (ds : List DevRead) (s : State),
    (ds.foldl (avg_spectrum_step F) s).n = s.n ∧
    (ds.foldl (avg_spectrum_step F) s).avg_on = s.avg_on ∧
    (ds.foldl (avg_spectrum_step F) s).adc_offset = s.adc_offset ∧
    (ds.foldl (avg_spectrum_step F) s).optical_power = s.optical_power ∧
    (ds.foldl (avg_spectrum_step F) s).power = s.power ∧
    (ds.foldl (avg_spectrum_step F) s).amplitude_transfer_function =
      s.amplitude_transfer_function
  | [], s => by simp
  | d :: ds, s => by
    have h1 := avg_spectrum_step_fields F s d
    have h2 := foldl_avg_spectrum_step_fields F ds (avg_spectrum_step F s d)
    simp only [List.foldl]
    exact ⟨h2.1.trans h1.1, h2.2.1.trans h1.2.1, h2.2.2.1.trans h1.2.2.1,
      h2.2.2.2.1.trans h1.2.2.2.1, h2.2.2.2.2.1.trans h1.2.2.2.2.1,
      h2.2.2.2.2.2.trans h1.2.2.2.2.2⟩

/-- Fields of the state that `get_avg_spectrum` never writes. -/
theorem get_avg_spectrum_fields (F : NumModel) (ds : List DevRead) (s : State) :
    (get_avg_spectrum F ds s).n = s.n ∧
    (get_avg_spectrum F ds s).avg_on = s.avg_on ∧
    (get_avg_spectrum F ds s).adc_offset = s.adc_offset ∧
    (get_avg_spectrum F ds s).optical_power = s.optical_power ∧
    (get_avg_spectrum F ds s).power = s.power ∧
    (get_avg_spectrum F ds s).amplitude_transfer_function =
      s.amplitude_transfer_function := by
  have h := foldl_avg_spectrum_step_fields F ds
    { s with avg_spectrum := ⟨List.replicate (s.n / 2) (some 0),
                              List.replicate (s.n / 2) (some 0)⟩ }
  simp only [get_avg_spectrum]
  exact h

/-- Closed form of a single-acquisition averaged spectrum. -/
theorem get_avg_spectrum_one_closed (F : NumModel) (d : DevRead) (s : State) :
    (get_avg_spectrum F [d] s).avg_spectrum =
      ⟨((fftRV F (get_adc d s).adc.c0).map (Option.map F.cabs)).take (s.n / 2),
       ((fftRV F (get_adc d s).adc.c1).map (Option.map F.cabs)).take (s.n / 2)⟩ := by
  simp only [get_avg_spectrum, List.foldl, avg_spectrum_step]
  set sr : State := { s with avg_spectrum := ⟨List.replicate (s.n / 2) (some 0),
                             List.replicate (s.n / 2) (some 0)⟩ } with hsr
  have hadc : (get_adc d sr).adc = (get_adc d s).adc :=
    get_adc_adc_congr d sr s rfl rfl rfl rfl
  have hn : (get_adc d sr).n = s.n := (get_adc_fields d sr).1
  have havg : (get_adc d sr).avg_spectrum = sr.avg_spectrum :=
    (get_adc_fields d sr).2.2.2.2.2.2.2.2.1
  rw [hadc, hn, havg]
  have htake : ∀ (m : List RV),
      List.zipWith addRV (List.replicate (s.n / 2) (some 0)) (m.take (s.n / 2)) =
        m.take (s.n / 2) := by
    intro m
    rw [zipWith_addRV_replicate_zero, List.take_take, min_self]
  show Pair.mk _ _ = _
  simp only [hsr]
  rw [htake, htake]
  have hdiv : ∀ x : RV, divScalarRV x 1 = x := fun x => by
    cases x <;> simp [divScalarRV]
  simp only [List.length_singleton, Nat.cast_one, hdiv, List.map_id']

/-- C7 counterexample: on a deterministic mocked acquisition source (device
depth 4, every sample reading the unsigned word `2^31`, i.e. signed
`-2^31`), `get_avg_spectrum(1)` does NOT equal the half-spectrum of
`get_spectrum()` on the same capture: the former holds magnitudes, the
latter (negative) complex values. -/
theorem avg_spectrum_ne_spectrum :
    ((get_avg_spectrum dftModel [dHalfScale] sampleState).avg_spectrum.c0).map
        (Option.map CQ.ofRat) ≠
      (get_spectrum dftModel (get_adc dHalfScale sampleState)).spectrum.c0 := by
  intro h
  have h0 := congrArg (fun l => l[0]?) h
  rw [get_avg_spectrum_one_closed] at h0
  simp only [get_spectrum] at h0
  have hu : unwrap 2147483648 = -2147483648 := by
    unfold unwrap fmod
    norm_num
  have hadc : (get_adc dHalfScale sampleState).adc.c0 =
      List.replicate 4 (some (-2147483648)) := by
    simp only [get_adc, dHalfScale, sampleState, init, reset, set_averaging]
    norm_num [firstIsNaN, calibrate, Pair.map, unwrapRV, subRV, scaleRV,
      List.replicate, hu]
  rw [hadc] at h0
  have hfft : fftRV dftModel (List.replicate 4 (some (-2147483648 : ℚ))) =
      [some ⟨-8589934592, 0⟩, some 0, some 0, some 0] := by
    simp only [fftRV, List.replicate, List.all_cons, List.map]
    norm_num [dftModel, dft4, CQ.ofRat, CQ.mul]
    rfl
  rw [hfft] at h0
  have hn : (get_adc dHalfScale sampleState).n = 4 := rfl
  rw [hn] at h0
  simp only [dftModel, List.map, Option.map, List.take, sampleState, init,
    reset, set_averaging] at h0
  norm_num [CQ.ofRat] at h0

/-- C7 amended: `get_avg_spectrum(1)` equals, per channel and bin, the
absolute value of the half-spectrum computed by `get_spectrum` on the same
capture (not the complex value itself), and a repeated call on the same
deterministic source reproduces the identical averaged spectrum. -/
theorem avg_spectrum_one_eq_abs_spectrum (F : NumModel) (d : DevRead) (s : State) :
    ((get_avg_spectrum F [d] s).avg_spectrum.c0 =
      ((get_spectrum F (get_adc d s)).spectrum.c0).map (Option.map F.cabs) ∧
     (get_avg_spectrum F [d] s).avg_spectrum.c1 =
      ((get_spectrum F (get_adc d s)).spectrum.c1).map (Option.map F.cabs)) ∧
    (get_avg_spectrum F [d] (get_avg_spectrum F [d] s)).avg_spectrum =
      (get_avg_spectrum F [d] s).avg_spectrum := by
  have hc := get_avg_spectrum_one_closed F d s
  have hn := (get_adc_fields d s).1
  constructor
  · constructor
    · rw [hc]
      simp [get_spectrum, hn, List.map_take]
    · rw [hc]
      simp [get_spectrum, hn, List.map_take]
  · have hfields := get_avg_spectrum_fields F [d] s
    have hc2 := get_avg_spectrum_one_closed F d (get_avg_spectrum F [d] s)
    rw [hc2, hc]
    have hadc : (get_adc d (get_avg_spectrum F [d] s)).adc = (get_adc d s).adc :=
      get_adc_adc_congr d _ s hfields.2.1 hfields.2.2.1 hfields.2.2.2.1
        hfields.2.2.2.2.1
    rw [hadc, hfields.1]

/-! ### C8: the amplitude-optimization step (corrected) -/

/-- The amplitude error as the spec's words describe it for a given
channel: the captured buffer of that channel minus that buffer's own mean,
minus the ideal waveform.  (Stated for comparison with the implementation,
which always reads channel 0.) -/
def amplitude_error_of_channel (s : State) (channel : Fin 2) : List RV :=
  let buf := s.adc.get channel
  let m := divScalarRV (buf.foldl addRV (some 0)) ((buf.length : ℚ))
  List.zipWith subRV (buf.map (fun x => subRV x m))
    (s.ideal_amplitude_waveform.map some)

/-- A controller state whose two captured channels differ. -/
def s8 : State :=
  { sampleState with
    adc := ⟨List.replicate 4 (some 0), [some 2, some 4, some 2, some 4]⟩ }

/-- C8 counterexample: with `channel = 1` and channel buffers that differ,
the amplitude error computed by `optimize_amplitude` is NOT the one formed
from channel 1's buffer: the implementation always reads channel 0. -/
theorem optimize_amplitude_error_ignores_channel :
    (optimize_amplitude trivialModel 1 1 s8).amplitude_error ≠
      amplitude_error_of_channel s8 1 := by
  intro h
  simp only [optimize_amplitude, amplitude_error_of_channel, s8, sampleState,
    init, reset, set_averaging, Pair.get] at h
  norm_num [subRV, addRV, divScalarRV, List.replicate] at h

/-- C8 amended: for every `alpha` and `channel`, `optimize_amplitude`
computes the amplitude error from channel 0's captured buffer (its own
mean subtracted, then the ideal waveform), regardless of `channel`, and
subtracts `alpha` times the correction waveform from the commanded output
waveform of `channel`. -/
theorem optimize_amplitude_behavior (F : NumModel) (alpha : ℚ)
    (channel : Fin 2) (s : State) :
    (optimize_amplitude F alpha channel s).amplitude_error =
      amplitude_error_of_channel s 0 ∧
    (optimize_amplitude F alpha channel s).dac.get channel =
      List.zipWith subRV (s.dac.get channel)
        ((get_correction F
            { s with amplitude_error := amplitude_error_of_channel s 0 }).map
          (fun x => scaleRV alpha x)) := by
  constructor
  · rfl
  · show (Pair.set _ channel _).get channel = _
    rw [Pair.get_set]
    rfl

/-! ### C9: the transfer-function length invariant (corrected) -/

/-- C9 counterexample: at construction the transfer function is allocated
with length `N` (the device sample depth), not `N/2 + 1`. -/
theorem tf_initial_length_not_half :
    (init 4 [] false).amplitude_transfer_function.length ≠ 4 / 2 + 1 := by
  decide

theorem estimate_tf_preserves_length (F : NumModel) (cd ca : Fin 2)
    (ts : List (List CQ × DevRead)) (s : State)
    (hn : Even s.n) (h0 : 0 < s.n)
    (hwf : ∀ t ∈ ts, t.1.length = s.n / 2 + 1 ∧
      t.2.r0.length = s.n ∧ t.2.r1.length = s.n)
    (htf : s.amplitude_transfer_function.length = s.n) :
    ∀ s', get_amplitude_transfer_function F cd ca ts s = some s' →
      s'.amplitude_transfer_function.length = s.n ∧ s'.n = s.n := by
  obtain ⟨s1, hl, hn1, htf1, _⟩ :=
    tf_loop_spec F cd ca ts
      { s with amplitude_transfer_function :=
          s.amplitude_transfer_function.map (fun z => scaleCV 0 z) }
      hn h0 hwf (by simpa using htf)
  intro s' hs'
  simp only [get_amplitude_transfer_function] at hs'
  rw [hl] at hs'
  simp only [Option.map_some'] at hs'
  rw [← Option.some_inj.mp hs']
  exact ⟨by simpa using htf1, hn1⟩

/-- C9 amended: the transfer function has length `N` — the full device
sample depth, not `N/2 + 1` — after construction, and every operation
preserves that length (externally supplied arrays of length `N` and
full-length device reads assumed, as `wfOp` states). -/
theorem tf_length_invariant (F : NumModel) (op : Op) (s : State)
    (n : ℕ) (g : List ℚ) (b : Bool)
    (hwf : wfOp op s = true)
    (hlen : s.amplitude_transfer_function.length = s.n) :
    (init n g b).amplitude_transfer_function.length = n ∧
    (step F op s).amplitude_transfer_function.length = (step F op s).n ∧
    (step F op s).n = s.n := by
  refine ⟨by simp [init, reset, set_averaging], ?_⟩
  cases op with
  | opReset =>
    constructor <;> simp [step, reset, set_averaging, hlen]
  | opSetAveraging b' =>
    constructor <;> (simp only [step, set_averaging]; split <;> simp [hlen])
  | opGetAdc d =>
    have h := get_adc_fields d s
    simp only [step]
    refine ⟨?_, h.1⟩
    rw [h.2.2.2.2.2.1, h.1]
    exact hlen
  | opEstimateTF cd ca ts =>
    simp only [wfOp, Bool.and_eq_true, decide_eq_true_eq,
      List.all_eq_true] at hwf
    obtain ⟨⟨hev, hpos⟩, hts⟩ := hwf
    have hts' : ∀ t ∈ ts, t.1.length = s.n / 2 + 1 ∧
        t.2.r0.length = s.n ∧ t.2.r1.length = s.n := by
      intro t ht
      have h := hts t ht
      simp only [Bool.and_eq_true, beq_iff_eq] at h
      exact ⟨h.1.1, h.1.2, h.2⟩
    have hpres := estimate_tf_preserves_length F cd ca ts s hev hpos hts' hlen
    simp only [step]
    cases hg : get_amplitude_transfer_function F cd ca ts s with
    | none => simp [Option.getD, hlen]
    | some s' =>
      have h := hpres s' hg
      simp only [Option.getD_some]
      exact ⟨h.1.trans h.2.symm, h.2⟩
  | opOptimizeAmplitude a c =>
    exact ⟨hlen, rfl⟩
  | opGetSpectrum =>
    exact ⟨hlen, rfl⟩
  | opGetAvgSpectrum ds =>
    have h := get_avg_spectrum_fields F ds s
    simp only [step]
    refine ⟨?_, h.1⟩
    rw [h.2.2.2.2.2, h.1]
    exact hlen
  | opSetTF tf =>
    simp only [wfOp, beq_iff_eq] at hwf
    exact ⟨hwf, rfl⟩

/-- C9 witness (for the amended theorem). -/
theorem tf_length_invariant_witness :
    (wfOp (Op.opSetTF (List.replicate 4 (some 1))) sampleState = true ∧
     sampleState.amplitude_transfer_function.length = sampleState.n) ∧
    ((init 4 [] false).amplitude_transfer_function.length = 4 ∧
     (step trivialModel (Op.opSetTF (List.replicate 4 (some 1)))
        sampleState).amplitude_transfer_function.length =
       (step trivialModel (Op.opSetTF (List.replicate 4 (some 1)))
        sampleState).n ∧
     (step trivialModel (Op.opSetTF (List.replicate 4 (some 1)))
        sampleState).n = sampleState.n) :=
  ⟨⟨by decide, by decide⟩,
   tf_length_invariant trivialModel (Op.opSetTF (List.replicate 4 (some 1)))
     sampleState 4 [] false (by decide) (by decide)⟩

/-! ### C10: the failure flag is write-once-true -/

theorem tf_loop_flag (F : NumModel) (cd ca : Fin 2) :
    ∀ (ts : List (List CQ × DevRead)) (s s1 : State),
    tf_loop F cd ca ts s = some s1 →
    s1.is_failed = s.is_failed ∨ s1.is_failed = some true
  | [], s, s1, h => Or.inl (by rw [← Option.some_inj.mp h])
  | t :: ts, s, s1, h => by
    simp only [tf_loop] at h
    cases htt : tf_trial F cd ca t s with
    | none => rw [htt] at h; simp at h
    | some s2 =>
      rw [htt] at h
      simp only [Option.some_bind] at h
      have h2 := tf_loop_flag F cd ca ts s2 s1 h
      have h1 : s2.is_failed = s.is_failed ∨ s2.is_failed = some true := by
        simp only [tf_trial] at htt
        cases hwn : white_noise F s.n (s.n / 2 + 1) none t.1 with
        | none => rw [hwn] at htt; simp at htt
        | some wn =>
          rw [hwn] at htt
          simp only at htt
          rw [← Option.some_inj.mp htt]
          exact get_adc_flag t.2 { s with dac := s.dac.set cd wn }
      rcases h2 with h2 | h2
      · rw [h2]; exact h1
      · exact Or.inr h2

theorem foldl_avg_spectrum_step_flag (F : NumModel) :
    ∀ (ds : List DevRead) (s : State),
    (ds.foldl (avg_spectrum_step F) s).is_failed = s.is_failed ∨
    (ds.foldl (avg_spectrum_step F) s).is_failed = some true
  | [], s => Or.inl rfl
  | d :: ds, s => by
    simp only [List.foldl]
    have h1 : (avg_spectrum_step F s d).is_failed = s.is_failed ∨
        (avg_spectrum_step F s d).is_failed = some true := by
      simp only [avg_spectrum_step]
      exact get_adc_flag d s
    have h2 := foldl_avg_spectrum_step_flag F ds (avg_spectrum_step F s d)
    rcases h2 with h2 | h2
    · rw [h2]; exact h1
    · exact Or.inr h2

/-- Every operation either leaves the failure flag unchanged or sets it to
`true`; it is never assigned `false`. -/
theorem step_flag (F : NumModel) (op : Op) (s : State) :
    (step F op s).is_failed = s.is_failed ∨
    (step F op s).is_failed = some true := by
  cases op with
  | opReset =>
    left
    simp [step, reset, set_averaging]
  | opSetAveraging b =>
    left
    simp only [step, set_averaging]
    split <;> rfl
  | opGetAdc d => exact get_adc_flag d s
  | opEstimateTF cd ca ts =>
    simp only [step]
    cases hg : get_amplitude_transfer_function F cd ca ts s with
    | none => exact Or.inl rfl
    | some s' =>
      simp only [Option.getD_some]
      simp only [get_amplitude_transfer_function] at hg
      cases hl : tf_loop F cd ca ts
          { s with amplitude_transfer_function :=
              s.amplitude_transfer_function.map (fun z => scaleCV 0 z) } with
      | none => rw [hl] at hg; simp at hg
      | some s1 =>
        rw [hl] at hg
        simp only [Option.map_some'] at hg
        have hfl := tf_loop_flag F cd ca ts _ s1 hl
        rw [← Option.some_inj.mp hg]
        exact hfl
  | opOptimizeAmplitude a c => exact Or.inl rfl
  | opGetSpectrum => exact Or.inl rfl
  | opGetAvgSpectrum ds =>
    simp only [step, get_avg_spectrum]
    exact foldl_avg_spectrum_step_flag F ds _
  | opSetTF tf => exact Or.inl rfl

/-- C10: the failure flag is absent (`none`) after construction — neither
`__init__` nor `reset` initialises it — no operation ever assigns it
`false`, and once it is `true` it stays `true` for the lifetime of the
controller. -/
theorem is_failed_invariant (F : NumModel) (op : Op) (s : State)
    (n : ℕ) (g : List ℚ) (b : Bool) :
    (init n g b).is_failed = none ∧
    ((step F op s).is_failed = s.is_failed ∨
      (step F op s).is_failed = some true) ∧
    (s.is_failed = some true → (step F op s).is_failed = some true) := by
  refine ⟨by simp [init, reset, set_averaging], step_flag F op s, ?_⟩
  intro h
  rcases step_flag F op s with h' | h'
  · rw [h', h]
  · exact h'

/-- A controller state whose failure flag is set. -/
def sTrue : State := { sampleState with is_failed := some true }

/-- C10 witness. -/
theorem is_failed_invariant_witness :
    (init 4 [] false).is_failed = none ∧
    ((step trivialModel Op.opReset sTrue).is_failed = sTrue.is_failed ∨
      (step trivialModel Op.opReset sTrue).is_failed = some true) ∧
    (step trivialModel Op.opReset sTrue).is_failed = some true :=
  ⟨(is_failed_invariant trivialModel Op.opReset sTrue 4 [] false).1,
   (is_failed_invariant trivialModel Op.opReset sTrue 4 [] false).2.1,
   (is_failed_invariant trivialModel Op.opReset sTrue 4 [] false).2.2 rfl⟩

end Oscillo
